import Mathlib

/-!
Verification of the non-Steam shortcut subsystem of the zladxhd-installer
repository (internal/steam/steam.go: Shortcut, GenerateAppID, ReadShortcuts,
WriteShortcuts, AddShortcut, UpdateShortcut, RemoveShortcut).

Modelling choices, shared by all definitions below:

* Go strings are byte sequences; they are modelled as lists of byte values
  (`GoStr`).  Go `uint32` values are modelled as `Nat` together with an
  explicit `< 2^32` bound where it matters.
* The binary key-value codec lives in the external module
  `github.com/jslay88/vdf`, which is not part of this repository's sources;
  it is modelled from the spec (section 4.1): a one-byte type tag precedes
  each entry (here: 0 for a nested object, 1 for a zero-terminated string,
  2 for a 4-byte little-endian integer, 8 for the sentinel closing an
  object); each key is a zero-terminated string; zero-length input decodes
  to an empty object; EOF inside a nested object is a parse failure.
* The spec (section 3) describes a VDF `Object` as an ordered mapping with
  reproducible iteration order; `vdf.Map` values are therefore modelled as
  ordered association lists (`VdfObj`), and Go `map` values owned by a
  `Shortcut` (the `Tags` field) as ordered association lists with the map
  invariant that keys are unique.  Go's `range` over such a map iterates in
  that order.
* The single shortcuts file that every repository operation reads and
  rewrites (`user.ShortcutsPath()`) is modelled by a `FileState`:
  `none` is a missing file, `some bytes` its current content.  The random
  source behind `crypto/rand` is modelled by an oracle `draws : Nat → Nat`
  giving the successive results of `rand.Int(rand.Reader, rangeSize)`
  (each already reduced into `[0, rangeSize)`), and the unbounded retry
  loop of `AddShortcut` by a fuel parameter: a `none` result means the
  loop has not terminated within `fuel` generation attempts.
-/

set_option maxRecDepth 100000

namespace Zladxhd

/-- Byte sequences standing for Go strings. -/
abbrev GoStr := List Nat

/-- Byte sequence of an ASCII string literal (used for the fixed VDF keys). -/
def gs (s : String) : GoStr := s.toList.map Char.toNat

/-- A well-formed Go string for the binary format: no interior NUL byte and
every element an actual byte. -/
def strOk (s : GoStr) : Prop := ∀ b ∈ s, b ≠ 0 ∧ b < 256

instance (s : GoStr) : Decidable (strOk s) := by
  unfold strOk; exact List.decidableBAll _ s

mutual
/-- Dynamic values of the vdf package: a string, a uint32, or a nested
object (`vdf.Map`), modelled from the spec's tagged variant. -/
inductive VdfValue : Type where
  | vstr : GoStr → VdfValue
  | vu32 : Nat → VdfValue
  | vobj : VdfObj → VdfValue
  deriving DecidableEq
/-- An ordered association list standing for a `vdf.Map`. -/
inductive VdfObj : Type where
  | nil : VdfObj
  | cons : GoStr → VdfValue → VdfObj → VdfObj
  deriving DecidableEq
end

/-- Key lookup in a `vdf.Map` (Go map indexing `m[key]`). -/
def VdfObj.lookup : VdfObj → GoStr → Option VdfValue
  | .nil, _ => none
  | .cons k v rest, key => if k = key then some v else rest.lookup key

/-- Type tag byte written before an entry of the given value. -/
def tagOf : VdfValue → Nat
  | .vstr _ => 1
  | .vu32 _ => 2
  | .vobj _ => 0

mutual
/-- Value trees whose strings are NUL-free and whose integers fit in 32
bits, so that they survive the binary format. -/
def ValidVal : VdfValue → Prop
  | .vstr s => 0 ∉ s
  | .vu32 n => n < 4294967296
  | .vobj o => ValidObj o
/-- Object trees whose keys are NUL-free and whose values are valid. -/
def ValidObj : VdfObj → Prop
  | .nil => True
  | .cons k v rest => 0 ∉ k ∧ ValidVal v ∧ ValidObj rest
end

/-- Little-endian 4-byte encoding of a 32-bit integer. -/
def encU32 (n : Nat) : List Nat :=
  [n % 256, n / 256 % 256, n / 65536 % 256, n / 16777216 % 256]

/-- Little-endian 4-byte decoding; fails on fewer than 4 remaining bytes
(truncated integer). -/
def decU32 : List Nat → Option (Nat × List Nat)
  | b0 :: b1 :: b2 :: b3 :: rest =>
    some (b0 + 256 * b1 + 65536 * b2 + 16777216 * b3, rest)
  | _ => none

/-- Reads a zero-terminated byte string; fails when no terminator remains
(truncated string). -/
def readStr : List Nat → Option (GoStr × List Nat)
  | [] => none
  | b :: rest =>
    if b = 0 then some ([], rest)
    else
      match readStr rest with
      | none => none
      | some (s, r) => some (b :: s, r)

mutual
/-- Encoding of one value (the bytes following its tag and key). -/
def encVal : VdfValue → List Nat
  | .vstr s => s ++ [0]
  | .vu32 n => encU32 n
  | .vobj o => encBody o ++ [8]
/-- Encoding of an object's entries, depth-first, without the closing
sentinel. -/
def encBody : VdfObj → List Nat
  | .nil => []
  | .cons k v rest => tagOf v :: (k ++ [0] ++ encVal v) ++ encBody rest
end

/-- Binary encoding of a root object (`vdf.WriteBinary`): its entries
followed by the closing sentinel. -/
def WriteBinary (o : VdfObj) : List Nat := encBody o ++ [8]

/-- Fuelled decoding of an object's entries.  `top` marks the root object,
where EOF (rather than only the sentinel) also closes the object, so that
zero-length input is an empty object; inside a nested object EOF is a
parse failure, as are a malformed tag byte, a truncated string and a
truncated integer. -/
def decEntries : Nat → Bool → List Nat → Option (VdfObj × List Nat)
  | 0, _, _ => none
  | fuel + 1, top, bs =>
    match bs with
    | [] => if top then some (.nil, []) else none
    | tag :: rest =>
      if tag = 8 then some (.nil, rest)
      else
        match readStr rest with
        | none => none
        | some (key, rest1) =>
          if tag = 1 then
            match readStr rest1 with
            | none => none
            | some (sv, rest2) =>
              match decEntries fuel top rest2 with
              | none => none
              | some (os, rest3) => some (.cons key (.vstr sv) os, rest3)
          else if tag = 2 then
            match decU32 rest1 with
            | none => none
            | some (n, rest2) =>
              match decEntries fuel top rest2 with
              | none => none
              | some (os, rest3) => some (.cons key (.vu32 n) os, rest3)
          else if tag = 0 then
            match decEntries fuel false rest1 with
            | none => none
            | some (o, rest2) =>
              match decEntries fuel top rest2 with
              | none => none
              | some (os, rest3) => some (.cons key (.vobj o) os, rest3)
          else none

/-- Binary decoding of a root object (`vdf.ReadBinary`); `none` is a parse
failure.  One byte is consumed before every recursive call, so `length + 1`
fuel always suffices. -/
def ReadBinary (bs : List Nat) : Option VdfObj :=
  match decEntries (bs.length + 1) true bs with
  | none => none
  | some (o, _) => some o

/-- A non-Steam game shortcut (struct `Shortcut` of internal/steam).  The Go
`map[string]string` field `Tags` is modelled as an association list whose
keys are unique. -/
structure Shortcut where
  AppID : Nat
  AppName : GoStr
  Exe : GoStr
  StartDir : GoStr
  Icon : GoStr
  ShortcutPath : GoStr
  LaunchOptions : GoStr
  IsHidden : Nat
  AllowDesktopConfig : Nat
  AllowOverlay : Nat
  OpenVR : Nat
  Devkit : Nat
  DevkitGameID : GoStr
  DevkitOverrideAppID : Nat
  LastPlayTime : Nat
  FlatpakAppID : GoStr
  Tags : List (GoStr × GoStr)
  deriving DecidableEq

/-- A shortcut representable in the binary format: every string field is a
NUL-free byte string, every uint32 field fits in 32 bits, and the Tags
association list satisfies the Go map invariant (unique keys). -/
def Shortcut.Valid (s : Shortcut) : Prop :=
  strOk s.AppName ∧ strOk s.Exe ∧ strOk s.StartDir ∧ strOk s.Icon ∧
  strOk s.ShortcutPath ∧ strOk s.LaunchOptions ∧ strOk s.DevkitGameID ∧
  strOk s.FlatpakAppID ∧
  s.AppID < 4294967296 ∧ s.IsHidden < 4294967296 ∧
  s.AllowDesktopConfig < 4294967296 ∧ s.AllowOverlay < 4294967296 ∧
  s.OpenVR < 4294967296 ∧ s.Devkit < 4294967296 ∧
  s.DevkitOverrideAppID < 4294967296 ∧ s.LastPlayTime < 4294967296 ∧
  (∀ p ∈ s.Tags, strOk p.1 ∧ strOk p.2) ∧ (s.Tags.map Prod.fst).Nodup

instance (s : Shortcut) : Decidable s.Valid := by
  unfold Shortcut.Valid; infer_instance

/-- A valid shortcut collection: every entry is valid. -/
def ValidCollection (l : List Shortcut) : Prop := ∀ s ∈ l, s.Valid

instance (l : List Shortcut) : Decidable (ValidCollection l) := by
  unfold ValidCollection; exact List.decidableBAll _ l

/-- Errors of the shortcut repository: a ParseError from the codec, or
NotFound from `UpdateShortcut` (the Go error "shortcut with AppID %d not
found"). -/
inductive SteamError : Type where
  | parseError : SteamError
  | notFound : Nat → SteamError
  deriving DecidableEq

/-- Content of the single shortcuts file an operation works on
(`user.ShortcutsPath()`): `none` when the file does not exist. -/
abbrev FileState := Option (List Nat)

/-- Go map update `m[k] = v` on an association list: replace the value at an
existing key in place, else append the new binding. -/
def setAssoc : List (GoStr × GoStr) → GoStr → GoStr → List (GoStr × GoStr)
  | [], k, v => [(k, v)]
  | (k', v') :: rest, k, v =>
    if k' = k then (k, v) :: rest else (k', v') :: setAssoc rest k v

/-- The `tags` loop of `parseShortcutEntry`: copy every string-valued entry
of a decoded tags object into the shortcut's Tags map, skipping entries of
any other type. -/
def collectTags : VdfObj → List (GoStr × GoStr) → List (GoStr × GoStr)
  | .nil, acc => acc
  | .cons k v rest, acc =>
    match v with
    | .vstr sv => collectTags rest (setAssoc acc k sv)
    | _ => collectTags rest acc

/-- The `tags` loop of `toVDFMap`: the shortcut's Tags map as a VDF object,
one string entry per binding, in the map's (modelled) iteration order. -/
def tagsToObj : List (GoStr × GoStr) → VdfObj
  | [] => .nil
  | (k, v) :: rest => .cons k (.vstr v) (tagsToObj rest)

/-- Method `toVDFMap` of `Shortcut`: the Go map literal's bindings in source
order, with the `tags` object added last. -/
def Shortcut.toVDFMap (s : Shortcut) : VdfObj :=
  .cons (gs "appid") (.vu32 s.AppID) <|
  .cons (gs "AppName") (.vstr s.AppName) <|
  .cons (gs "Exe") (.vstr s.Exe) <|
  .cons (gs "StartDir") (.vstr s.StartDir) <|
  .cons (gs "icon") (.vstr s.Icon) <|
  .cons (gs "ShortcutPath") (.vstr s.ShortcutPath) <|
  .cons (gs "LaunchOptions") (.vstr s.LaunchOptions) <|
  .cons (gs "IsHidden") (.vu32 s.IsHidden) <|
  .cons (gs "AllowDesktopConfig") (.vu32 s.AllowDesktopConfig) <|
  .cons (gs "AllowOverlay") (.vu32 s.AllowOverlay) <|
  .cons (gs "OpenVR") (.vu32 s.OpenVR) <|
  .cons (gs "Devkit") (.vu32 s.Devkit) <|
  .cons (gs "DevkitGameID") (.vstr s.DevkitGameID) <|
  .cons (gs "DevkitOverrideAppID") (.vu32 s.DevkitOverrideAppID) <|
  .cons (gs "LastPlayTime") (.vu32 s.LastPlayTime) <|
  .cons (gs "FlatpakAppID") (.vstr s.FlatpakAppID) <|
  .cons (gs "tags") (.vobj (tagsToObj s.Tags)) .nil

/-- The Go type assertion `m[key].(uint32)`: the stored value when it is a
uint32, otherwise the field keeps its zero value. -/
def getU32 (m : VdfObj) (key : GoStr) : Nat :=
  match m.lookup key with
  | some (.vu32 n) => n
  | _ => 0

/-- The Go type assertion `m[key].(string)`: the stored value when it is a
string, otherwise the field keeps its zero value. -/
def getStr (m : VdfObj) (key : GoStr) : GoStr :=
  match m.lookup key with
  | some (.vstr sv) => sv
  | _ => []

/-- Function `parseShortcutEntry`: map a decoded entry object onto a
Shortcut, reading each known key with a type assertion and silently
skipping a key whose value has the wrong dynamic type. -/
def parseShortcutEntry (m : VdfObj) : Shortcut :=
  { AppID := getU32 m (gs "appid")
    AppName := getStr m (gs "AppName")
    Exe := getStr m (gs "Exe")
    StartDir := getStr m (gs "StartDir")
    Icon := getStr m (gs "icon")
    ShortcutPath := getStr m (gs "ShortcutPath")
    LaunchOptions := getStr m (gs "LaunchOptions")
    IsHidden := getU32 m (gs "IsHidden")
    AllowDesktopConfig := getU32 m (gs "AllowDesktopConfig")
    AllowOverlay := getU32 m (gs "AllowOverlay")
    OpenVR := getU32 m (gs "OpenVR")
    Devkit := getU32 m (gs "Devkit")
    DevkitGameID := getStr m (gs "DevkitGameID")
    DevkitOverrideAppID := getU32 m (gs "DevkitOverrideAppID")
    LastPlayTime := getU32 m (gs "LastPlayTime")
    FlatpakAppID := getStr m (gs "FlatpakAppID")
    Tags :=
      match m.lookup (gs "tags") with
      | some (.vobj t) => collectTags t []
      | _ => [] }

/-- The entry loop of `ReadShortcuts`: each object-valued child of the
shortcuts map becomes a Shortcut; a child of any other type is skipped. -/
def collectShortcuts : VdfObj → List Shortcut
  | .nil => []
  | .cons _ v rest =>
    match v with
    | .vobj entry => parseShortcutEntry entry :: collectShortcuts rest
    | _ => collectShortcuts rest

/-- The build loop of `WriteShortcuts`: entries keyed by the decimal
sequence index (`fmt.Sprintf` of i), in sequence order — the loop inserts a
fresh key each iteration, so the resulting map holds exactly these bindings
in insertion order. -/
def shortcutsObjOf : List Shortcut → Nat → VdfObj
  | [], _ => .nil
  | s :: rest, i => .cons (gs (Nat.repr i)) (.vobj s.toVDFMap) (shortcutsObjOf rest (i + 1))

/-- Function `ReadShortcuts`: a missing file and a zero-length file are an
empty collection; a codec failure is a ParseError; a missing or
non-object `shortcuts` key yields an empty collection. -/
def ReadShortcuts : FileState → Except SteamError (List Shortcut)
  | none => .ok []
  | some data =>
    if data = [] then .ok []
    else
      match ReadBinary data with
      | none => .error .parseError
      | some vdfMap =>
        match vdfMap.lookup (gs "shortcuts") with
        | none => .ok []
        | some v =>
          match v with
          | .vobj shortcutsMap => .ok (collectShortcuts shortcutsMap)
          | _ => .ok []

/-- Function `WriteShortcuts`: the collection serialized under the single
top-level key `shortcuts` (the bytes that overwrite the target file). -/
def WriteShortcuts (l : List Shortcut) : List Nat :=
  WriteBinary (.cons (gs "shortcuts") (.vobj (shortcutsObjOf l 0)) .nil)

/-- Function `GenerateAppID` as a function of one raw random draw: the code
computes `rangeSize = 0xFFFFFFFF - 0xFF000000 = 0xFFFFFF` and adds to
`0xFF000000` a `crypto/rand` integer uniform in `[0, rangeSize)`; the draw
is modelled as an arbitrary natural already reduced into that interval. -/
def genAppID (r : Nat) : Nat := 4278190080 + r % 16777215

/-- The collision-retry loop of `AddShortcut`: generate, retry while the
candidate AppID is already present.  `draws` enumerates the successive
random draws; the Go loop is unbounded, so a `none` result means it has
not terminated within `fuel` generation attempts. -/
def allocFuel : Nat → (Nat → Nat) → List Nat → Option Nat
  | 0, _, _ => none
  | fuel + 1, draws, ids =>
    let a := genAppID (draws 0)
    if a ∈ ids then allocFuel fuel (fun i => draws (i + 1)) ids else some a

/-- Function `AddShortcut` (fuelled).  Result `none` means the retry loop
is still running after `fuel` draws; otherwise the result carries the Go
return values `(appID, isNew)` or the error, the final value of the
caller's `*shortcut` (the function writes the allocated AppID through the
pointer), and the resulting file state. -/
def addShortcutFuel (fuel : Nat) (draws : Nat → Nat) (file : FileState)
    (sc : Shortcut) :
    Option (Except SteamError (Nat × Bool) × Shortcut × FileState) :=
  match ReadShortcuts file with
  | .error e => some (.error e, sc, file)
  | .ok shortcuts =>
    match shortcuts.find? (fun s => s.AppName == sc.AppName) with
    | some s => some (.ok (s.AppID, false), sc, file)
    | none =>
      if sc.AppID = 0 then
        match allocFuel fuel draws (shortcuts.map (fun s => s.AppID)) with
        | none => none
        | some a =>
          let sc' : Shortcut := { sc with AppID := a }
          some (.ok (a, true), sc', some (WriteShortcuts (shortcuts ++ [sc'])))
      else
        some (.ok (sc.AppID, true), sc, some (WriteShortcuts (shortcuts ++ [sc])))

/-- The search-and-replace loop of `UpdateShortcut`: replace the first
entry whose AppID matches, in place; `none` when no entry matches. -/
def replaceFirst : List Shortcut → Shortcut → Option (List Shortcut)
  | [], _ => none
  | s :: rest, sc =>
    if s.AppID = sc.AppID then some (sc :: rest)
    else
      match replaceFirst rest sc with
      | none => none
      | some l => some (s :: l)

/-- Function `UpdateShortcut`: read, replace the first AppID match in
place, write; NotFound without writing when no entry matches.  The second
component is the resulting file state (unchanged on every error path). -/
def updateShortcut (file : FileState) (sc : Shortcut) :
    Except SteamError Unit × FileState :=
  match ReadShortcuts file with
  | .error e => (.error e, file)
  | .ok shortcuts =>
    match replaceFirst shortcuts sc with
    | none => (.error (.notFound sc.AppID), file)
    | some l => (.ok (), some (WriteShortcuts l))

/-- Function `RemoveShortcut`: read, drop every entry with the given
AppID, and unconditionally write the remainder back. -/
def removeShortcut (file : FileState) (appID : Nat) :
    Except SteamError Unit × FileState :=
  match ReadShortcuts file with
  | .error e => (.error e, file)
  | .ok shortcuts =>
    (.ok (), some (WriteShortcuts (shortcuts.filter (fun s => s.AppID != appID))))

/-- One `AddShortcut` call of a sequential scenario: its retry budget, its
random draws and its argument shortcut. -/
structure AddStep where
  fuel : Nat
  draws : Nat → Nat
  sc : Shortcut

/-- A step whose shortcut asks for AppID allocation and is representable. -/
def stepOK (st : AddStep) : Prop := st.sc.AppID = 0 ∧ st.sc.Valid

/-- The AppNames of a sequence of add steps. -/
def namesOf (steps : List AddStep) : List GoStr :=
  steps.map (fun st => st.sc.AppName)

/-- Sequential `AddShortcut` calls against one file, collecting the
returned AppIDs; `none` when a call fails or exhausts its fuel. -/
def runAdds : List AddStep → FileState → Option (List Nat × FileState)
  | [], file => some ([], file)
  | step :: rest, file =>
    match addShortcutFuel step.fuel step.draws file step.sc with
    | some (.ok (id, _), _, file') =>
      match runAdds rest file' with
      | none => none
      | some (ids, f') => some (id :: ids, f')
    | _ => none

theorem decU32_encU32 (n : Nat) (h : n < 4294967296) (rest : List Nat) :
    decU32 (encU32 n ++ rest) = some (n, rest) := by
  simp only [encU32, List.cons_append, List.nil_append, decU32,
    Option.some.injEq, Prod.mk.injEq]
  exact ⟨by omega, trivial⟩

theorem readStr_append (s : GoStr) (h : 0 ∉ s) (rest : List Nat) :
    readStr (s ++ 0 :: rest) = some (s, rest) := by
  induction s with
  | nil => simp [readStr]
  | cons b t ih =>
    have hb : b ≠ 0 := fun hb => h (by simp [hb])
    have ht : 0 ∉ t := fun hm => h (List.mem_cons_of_mem _ hm)
    simp [readStr, hb, ih ht]

theorem dec_body (fuel : Nat) :
    ∀ (o : VdfObj) (top : Bool) (rest : List Nat), ValidObj o →
      (encBody o).length < fuel →
      decEntries fuel top (encBody o ++ 8 :: rest) = some (o, rest) := by
  induction fuel with
  | zero => intro o top rest _ h; omega
  | succ fuel ih =>
    intro o top rest hv hl
    cases o with
    | nil => simp [encBody, decEntries]
    | cons k v os =>
      obtain ⟨hk, hvv, hvo⟩ := hv
      cases v with
      | vstr s =>
        have hs : (0 : Nat) ∉ s := hvv
        have harith : (encBody os).length < fuel := by
          simp only [encBody, encVal, tagOf, List.length_cons,
            List.length_append] at hl
          omega
        simp only [encBody, encVal, tagOf, List.cons_append, List.append_assoc,
          List.nil_append]
        simp [decEntries, readStr_append k hk, readStr_append s hs,
          ih os top rest hvo harith]
      | vu32 n =>
        have hn : n < 4294967296 := hvv
        have harith : (encBody os).length < fuel := by
          simp only [encBody, encVal, tagOf, encU32, List.length_cons,
            List.length_append] at hl
          omega
        simp only [encBody, encVal, tagOf, List.cons_append, List.append_assoc,
          List.nil_append]
        simp [decEntries, readStr_append k hk, decU32_encU32 n hn,
          ih os top rest hvo harith]
      | vobj o =>
        have ho : ValidObj o := hvv
        have harith1 : (encBody o).length < fuel := by
          simp only [encBody, encVal, tagOf, List.length_cons,
            List.length_append] at hl
          omega
        have harith2 : (encBody os).length < fuel := by
          simp only [encBody, encVal, tagOf, List.length_cons,
            List.length_append] at hl
          omega
        simp only [encBody, encVal, tagOf, List.cons_append, List.append_assoc,
          List.nil_append]
        simp [decEntries, readStr_append k hk,
          ih o false (encBody os ++ 8 :: rest) ho harith1,
          ih os top rest hvo harith2]

theorem readBinary_writeBinary (o : VdfObj) (h : ValidObj o) :
    ReadBinary (WriteBinary o) = some o := by
  have hlen : (encBody o).length < (encBody o ++ [8]).length + 1 := by
    simp only [List.length_append, List.length_cons, List.length_nil]
    omega
  have hdec := dec_body ((encBody o ++ [8]).length + 1) o true [] h hlen
  unfold ReadBinary WriteBinary
  rw [hdec]


theorem strOk_noNul {s : GoStr} (h : strOk s) : 0 ∉ s :=
  fun hm => (h 0 hm).1 rfl

theorem digitChar_toNat_ok (n : Nat) :
    (Nat.digitChar n).toNat ≠ 0 ∧ (Nat.digitChar n).toNat < 256 := by
  rcases Nat.lt_or_ge n 16 with h | h
  · interval_cases n <;> decide
  · have hstar : Nat.digitChar n = '*' := by
      unfold Nat.digitChar
      iterate 16 rw [if_neg (by omega)]
    rw [hstar]
    decide

theorem toDigitsCore_ok (b f : Nat) :
    ∀ (n : Nat) (acc : List Char),
      (∀ c ∈ acc, c.toNat ≠ 0 ∧ c.toNat < 256) →
      ∀ c ∈ Nat.toDigitsCore b f n acc, c.toNat ≠ 0 ∧ c.toNat < 256 := by
  induction f with
  | zero =>
    intro n acc hacc c hc
    unfold Nat.toDigitsCore at hc
    exact hacc c hc
  | succ f ih =>
    intro n acc hacc c hc
    unfold Nat.toDigitsCore at hc
    simp only at hc
    split at hc
    · rcases List.mem_cons.1 hc with h | h
      · subst h; exact digitChar_toNat_ok _
      · exact hacc c h
    · refine ih (n / b) (Nat.digitChar (n % b) :: acc) ?_ c hc
      intro c' hc'
      rcases List.mem_cons.1 hc' with h | h
      · subst h; exact digitChar_toNat_ok _
      · exact hacc c' h

theorem noNul_gs_repr (i : Nat) : 0 ∉ gs (Nat.repr i) := by
  intro hm
  unfold gs at hm
  rw [List.mem_map] at hm
  obtain ⟨c, hc, hc0⟩ := hm
  have hlist : (Nat.repr i).toList = Nat.toDigits 10 i := rfl
  rw [hlist] at hc
  unfold Nat.toDigits at hc
  exact (toDigitsCore_ok 10 (i + 1) i [] (by intro c' hc'; cases hc') c hc).1 hc0

theorem validObj_tagsToObj (T : List (GoStr × GoStr))
    (h : ∀ p ∈ T, strOk p.1 ∧ strOk p.2) : ValidObj (tagsToObj T) := by
  induction T with
  | nil => trivial
  | cons p rest ih =>
    obtain ⟨k, v⟩ := p
    have hp := h (k, v) (by simp)
    exact ⟨strOk_noNul hp.1, strOk_noNul hp.2,
      ih (fun q hq => h q (List.mem_cons_of_mem _ hq))⟩

theorem validObj_toVDFMap (s : Shortcut) (h : s.Valid) : ValidObj s.toVDFMap := by
  obtain ⟨h1, h2, h3, h4, h5, h6, h7, h8, h9, h10, h11, h12, h13, h14, h15, h16,
    h17, h18⟩ := h
  exact ⟨by decide, h9,
    by decide, strOk_noNul h1,
    by decide, strOk_noNul h2,
    by decide, strOk_noNul h3,
    by decide, strOk_noNul h4,
    by decide, strOk_noNul h5,
    by decide, strOk_noNul h6,
    by decide, h10,
    by decide, h11,
    by decide, h12,
    by decide, h13,
    by decide, h14,
    by decide, strOk_noNul h7,
    by decide, h15,
    by decide, h16,
    by decide, strOk_noNul h8,
    by decide, validObj_tagsToObj s.Tags h17, trivial⟩

theorem setAssoc_fresh (acc : List (GoStr × GoStr)) (k v : GoStr)
    (h : ∀ p ∈ acc, p.1 ≠ k) : setAssoc acc k v = acc ++ [(k, v)] := by
  induction acc with
  | nil => rfl
  | cons q rest ih =>
    obtain ⟨k', v'⟩ := q
    have hk' : k' ≠ k := h (k', v') (by simp)
    simp only [setAssoc, if_neg hk', List.cons_append, List.cons.injEq, true_and]
    exact ih (fun p hp => h p (List.mem_cons_of_mem _ hp))

theorem collectTags_tagsToObj :
    ∀ (T acc : List (GoStr × GoStr)),
      (∀ p ∈ T, ∀ q ∈ acc, q.1 ≠ p.1) → (T.map Prod.fst).Nodup →
      collectTags (tagsToObj T) acc = acc ++ T := by
  intro T
  induction T with
  | nil => intro acc _ _; simp [tagsToObj, collectTags]
  | cons p rest ih =>
    intro acc hd hn
    obtain ⟨k, v⟩ := p
    have hfresh : ∀ q ∈ acc, q.1 ≠ k := fun q hq => hd (k, v) (by simp) q hq
    simp only [tagsToObj, collectTags]
    rw [setAssoc_fresh acc k v hfresh]
    rw [ih (acc ++ [(k, v)]) ?_ ?_]
    · simp
    · intro p hp q hq
      rcases List.mem_append.1 hq with hq | hq
      · exact hd p (List.mem_cons_of_mem _ hp) q hq
      · have hqk : q = (k, v) := by simpa using hq
        subst hqk
        simp only [List.map_cons, List.nodup_cons] at hn
        intro hcontra
        have hkp : k = p.1 := hcontra
        refine hn.1 ?_
        rw [hkp]
        exact List.mem_map_of_mem Prod.fst hp
    · simp only [List.map_cons, List.nodup_cons] at hn
      exact hn.2

theorem parse_toVDFMap (s : Shortcut) (h : s.Valid) :
    parseShortcutEntry s.toVDFMap = s := by
  have hnd : (s.Tags.map Prod.fst).Nodup := h.2.2.2.2.2.2.2.2.2.2.2.2.2.2.2.2.2
  have htags : collectTags (tagsToObj s.Tags) [] = s.Tags := by
    have := collectTags_tagsToObj s.Tags []
      (by intro p _ q hq; cases hq) hnd
    simpa using this
  have hbase : parseShortcutEntry s.toVDFMap =
      { s with Tags := collectTags (tagsToObj s.Tags) [] } := rfl
  rw [hbase, htags]

theorem validObj_shortcutsObjOf (l : List Shortcut) (h : ValidCollection l) :
    ∀ i : Nat, ValidObj (shortcutsObjOf l i) := by
  induction l with
  | nil => intro i; trivial
  | cons s rest ih =>
    intro i
    exact ⟨noNul_gs_repr i, validObj_toVDFMap s (h s (by simp)),
      ih (fun x hx => h x (List.mem_cons_of_mem _ hx)) (i + 1)⟩

theorem collectShortcuts_shortcutsObjOf (l : List Shortcut)
    (h : ValidCollection l) : ∀ i : Nat, collectShortcuts (shortcutsObjOf l i) = l := by
  induction l with
  | nil => intro i; rfl
  | cons s rest ih =>
    intro i
    simp only [shortcutsObjOf, collectShortcuts]
    rw [parse_toVDFMap s (h s (by simp))]
    rw [ih (fun x hx => h x (List.mem_cons_of_mem _ hx)) (i + 1)]

theorem writeShortcuts_ne_nil (l : List Shortcut) : WriteShortcuts l ≠ [] := by
  simp [WriteShortcuts, WriteBinary, encBody]

theorem read_write (l : List Shortcut) (h : ValidCollection l) :
    ReadShortcuts (some (WriteShortcuts l)) = .ok l := by
  have hvtop : ValidObj (VdfObj.cons (gs "shortcuts")
      (.vobj (shortcutsObjOf l 0)) .nil) :=
    ⟨by decide, validObj_shortcutsObjOf l h 0, trivial⟩
  simp only [ReadShortcuts]
  rw [if_neg (writeShortcuts_ne_nil l)]
  unfold WriteShortcuts
  rw [readBinary_writeBinary _ hvtop]
  simp [VdfObj.lookup, collectShortcuts_shortcutsObjOf l h 0]

theorem genAppID_bounds (r : Nat) :
    4278190080 ≤ genAppID r ∧ genAppID r ≤ 4294967294 := by
  unfold genAppID
  have : r % 16777215 < 16777215 := Nat.mod_lt _ (by norm_num)
  omega

theorem allocFuel_some {fuel : Nat} {draws : Nat → Nat} {ids : List Nat} {a : Nat}
    (h : allocFuel fuel draws ids = some a) :
    a ∉ ids ∧ 4278190080 ≤ a ∧ a ≤ 4294967294 := by
  induction fuel generalizing draws with
  | zero => cases h
  | succ fuel ih =>
    unfold allocFuel at h
    by_cases hmem : genAppID (draws 0) ∈ ids
    · rw [if_pos hmem] at h
      exact ih h
    · rw [if_neg hmem] at h
      obtain rfl : genAppID (draws 0) = a := by simpa using h
      exact ⟨hmem, genAppID_bounds _⟩

theorem allocFuel_conflict {draws : Nat → Nat} {ids : List Nat}
    (h : ∀ i, genAppID (draws i) ∈ ids) :
    ∀ fuel, allocFuel fuel draws ids = none := by
  intro fuel
  induction fuel generalizing draws with
  | zero => rfl
  | succ fuel ih =>
    unfold allocFuel
    rw [if_pos (h 0)]
    exact ih (fun i => h (i + 1))

theorem valid_with_appid {sc : Shortcut} {a : Nat} (h : sc.Valid)
    (ha : a < 4294967296) : ({ sc with AppID := a } : Shortcut).Valid := by
  obtain ⟨h1, h2, h3, h4, h5, h6, h7, h8, _, h10, h11, h12, h13, h14, h15, h16,
    h17, h18⟩ := h
  exact ⟨h1, h2, h3, h4, h5, h6, h7, h8, ha, h10, h11, h12, h13, h14, h15, h16,
    h17, h18⟩

theorem find?_name_eq {l : List Shortcut} {name : GoStr} {e : Shortcut}
    (h : l.find? (fun s => s.AppName == name) = some e) :
    e ∈ l ∧ e.AppName = name := by
  refine ⟨List.mem_of_find?_eq_some h, ?_⟩
  have := List.find?_some h
  simpa using this

theorem find?_append_none {l1 l2 : List Shortcut} {p : Shortcut → Bool}
    (h : l1.find? p = none) : (l1 ++ l2).find? p = l2.find? p := by
  induction l1 with
  | nil => rfl
  | cons s rest ih =>
    by_cases hp : p s
    · rw [List.find?_cons_of_pos _ hp] at h
      cases h
    · rw [List.find?_cons_of_neg _ hp] at h
      rw [List.cons_append, List.find?_cons_of_neg _ hp]
      exact ih h

theorem addShortcut_ok {fuel : Nat} {draws : Nat → Nat} {file : FileState}
    {sc : Shortcut} {l : List Shortcut} {r : Nat × Bool} {sc' : Shortcut}
    {file' : FileState}
    (hread : ReadShortcuts file = .ok l)
    (hadd : addShortcutFuel fuel draws file sc = some (.ok r, sc', file')) :
    (∃ e, l.find? (fun s => s.AppName == sc.AppName) = some e ∧
      r = (e.AppID, false) ∧ sc' = sc ∧ file' = file) ∨
    (l.find? (fun s => s.AppName == sc.AppName) = none ∧
      r.2 = true ∧ sc' = { sc with AppID := r.1 } ∧
      file' = some (WriteShortcuts (l ++ [sc'])) ∧
      (sc.AppID = 0 → allocFuel fuel draws (l.map (fun s => s.AppID)) = some r.1) ∧
      (sc.AppID ≠ 0 → r.1 = sc.AppID)) := by
  unfold addShortcutFuel at hadd
  rw [hread] at hadd
  simp only at hadd
  cases hfind : l.find? (fun s => s.AppName == sc.AppName) with
  | some e =>
    rw [hfind] at hadd
    simp only [Option.some.injEq, Prod.mk.injEq, Except.ok.injEq] at hadd
    obtain ⟨rfl, rfl, rfl⟩ := hadd
    exact Or.inl ⟨e, rfl, rfl, rfl, rfl⟩
  | none =>
    rw [hfind] at hadd
    by_cases h0 : sc.AppID = 0
    · rw [if_pos h0] at hadd
      cases halloc : allocFuel fuel draws (l.map (fun s => s.AppID)) with
      | none => rw [halloc] at hadd; cases hadd
      | some a =>
        rw [halloc] at hadd
        simp only [Option.some.injEq, Prod.mk.injEq, Except.ok.injEq] at hadd
        obtain ⟨rfl, rfl, rfl⟩ := hadd
        exact Or.inr ⟨rfl, rfl, rfl, rfl, fun _ => rfl,
          fun hne => absurd h0 hne⟩
    · rw [if_neg h0] at hadd
      simp only [Option.some.injEq, Prod.mk.injEq, Except.ok.injEq] at hadd
      obtain ⟨rfl, rfl, rfl⟩ := hadd
      exact Or.inr ⟨rfl, rfl, rfl, rfl, fun hz => absurd hz h0, fun _ => rfl⟩

theorem valid_append_one {l : List Shortcut} {sc : Shortcut}
    (hvl : ValidCollection l) (hvsc : sc.Valid) : ValidCollection (l ++ [sc]) := by
  intro x hx
  rcases List.mem_append.1 hx with hx | hx
  · exact hvl x hx
  · have hxe : x = sc := by simpa using hx
    rw [hxe]; exact hvsc

theorem addShortcut_new_read {fuel : Nat} {draws : Nat → Nat} {file : FileState}
    {sc : Shortcut} {l : List Shortcut} {id : Nat} {sc' : Shortcut}
    {file' : FileState}
    (hread : ReadShortcuts file = .ok l) (hvl : ValidCollection l)
    (hvsc : sc.Valid)
    (hadd : addShortcutFuel fuel draws file sc = some (.ok (id, true), sc', file')) :
    ReadShortcuts file' = .ok (l ++ [sc']) ∧
    sc'.AppID = id ∧ sc'.AppName = sc.AppName ∧ sc'.Valid ∧ id ≠ 0 ∧
    (sc.AppID = 0 → id ∉ l.map (fun s => s.AppID)) ∧
    l.find? (fun s => s.AppName == sc.AppName) = none := by
  rcases addShortcut_ok hread hadd with
    ⟨e, _, hr, _, _⟩ | ⟨hfind, _, hsc, hfile, halloc0, hallocn⟩
  · simp at hr
  · by_cases h0 : sc.AppID = 0
    · have halloc := halloc0 h0
      have hb := allocFuel_some halloc
      have hvsc' : sc'.Valid := by
        rw [hsc]; exact valid_with_appid hvsc (by omega)
      refine ⟨?_, ?_, ?_, hvsc', by omega, fun _ => hb.1, hfind⟩
      · rw [hfile]; exact read_write _ (valid_append_one hvl hvsc')
      · rw [hsc]
      · rw [hsc]
    · have hid : id = sc.AppID := hallocn h0
      have hvsc' : sc'.Valid := by
        rw [hsc]
        exact valid_with_appid hvsc (hid ▸ hvsc.2.2.2.2.2.2.2.2.1)
      refine ⟨?_, ?_, ?_, hvsc', ?_, fun hz => absurd hz h0, hfind⟩
      · rw [hfile]; exact read_write _ (valid_append_one hvl hvsc')
      · rw [hsc]
      · rw [hsc]
      · rw [hid]; exact h0

theorem replaceFirst_none {l : List Shortcut} {sc : Shortcut} :
    replaceFirst l sc = none ↔ ∀ s ∈ l, s.AppID ≠ sc.AppID := by
  induction l with
  | nil => simp [replaceFirst]
  | cons s rest ih =>
    by_cases hs : s.AppID = sc.AppID
    · simp only [replaceFirst, if_pos hs]
      constructor
      · intro h; cases h
      · intro h; exact absurd hs (h s (by simp))
    · simp only [replaceFirst, if_neg hs]
      cases hrest : replaceFirst rest sc with
      | none =>
        simp only []
        constructor
        · intro _ x hx
          rcases List.mem_cons.1 hx with hx | hx
          · rw [hx]; exact hs
          · exact (ih.1 hrest) x hx
        · intro _; trivial
      | some l' =>
        simp only []
        constructor
        · intro h; cases h
        · intro h
          have : replaceFirst rest sc = none :=
            ih.2 (fun x hx => h x (List.mem_cons_of_mem _ hx))
          rw [this] at hrest; cases hrest

theorem replaceFirst_map {l l' : List Shortcut} {sc : Shortcut}
    (h : replaceFirst l sc = some l') :
    l'.map (fun s => s.AppID) = l.map (fun s => s.AppID) := by
  induction l generalizing l' with
  | nil => cases h
  | cons s rest ih =>
    by_cases hs : s.AppID = sc.AppID
    · rw [replaceFirst, if_pos hs] at h
      obtain rfl : sc :: rest = l' := by simpa using h
      simp [hs]
    · rw [replaceFirst, if_neg hs] at h
      cases hrest : replaceFirst rest sc with
      | none => rw [hrest] at h; cases h
      | some l2 =>
        rw [hrest] at h
        obtain rfl : s :: l2 = l' := by simpa using h
        simp [ih hrest]

theorem replaceFirst_mem {l l' : List Shortcut} {sc : Shortcut}
    (h : replaceFirst l sc = some l') :
    ∀ x ∈ l', x = sc ∨ x ∈ l := by
  induction l generalizing l' with
  | nil => cases h
  | cons s rest ih =>
    by_cases hs : s.AppID = sc.AppID
    · rw [replaceFirst, if_pos hs] at h
      obtain rfl : sc :: rest = l' := by simpa using h
      intro x hx
      rcases List.mem_cons.1 hx with hx | hx
      · exact Or.inl hx
      · exact Or.inr (List.mem_cons_of_mem _ hx)
    · rw [replaceFirst, if_neg hs] at h
      cases hrest : replaceFirst rest sc with
      | none => rw [hrest] at h; cases h
      | some l2 =>
        rw [hrest] at h
        obtain rfl : s :: l2 = l' := by simpa using h
        intro x hx
        rcases List.mem_cons.1 hx with hx | hx
        · exact Or.inr (by rw [hx]; simp)
        · rcases ih hrest x hx with hx2 | hx2
          · exact Or.inl hx2
          · exact Or.inr (List.mem_cons_of_mem _ hx2)

theorem replaceFirst_valid {l l' : List Shortcut} {sc : Shortcut}
    (hvl : ValidCollection l) (hvsc : sc.Valid)
    (h : replaceFirst l sc = some l') : ValidCollection l' := by
  intro x hx
  rcases replaceFirst_mem h x hx with hx2 | hx2
  · rw [hx2]; exact hvsc
  · exact hvl x hx2

theorem replaceFirst_set {l : List Shortcut} {sc e : Shortcut} :
    ∀ {i : Nat}, l[i]? = some e → e.AppID = sc.AppID →
      (∀ j, j < i → ∀ e', l[j]? = some e' → e'.AppID ≠ sc.AppID) →
      replaceFirst l sc = some (l.set i sc) := by
  induction l with
  | nil => intro i h _ _; cases h
  | cons s rest ih =>
    intro i h he hj
    cases i with
    | zero =>
      obtain rfl : s = e := by simpa using h
      rw [replaceFirst, if_pos (by rw [he])]
      rfl
    | succ i =>
      have hs : s.AppID ≠ sc.AppID := by
        exact hj 0 (Nat.succ_pos i) s (by simp)
      rw [replaceFirst, if_neg hs]
      have hresti : rest[i]? = some e := by simpa using h
      rw [ih hresti he ?_]
      · rfl
      · intro j hji e' he'
        exact hj (j + 1) (Nat.succ_lt_succ hji) e' (by simpa using he')

theorem runAdds_spec :
    ∀ (steps : List AddStep) (file : FileState) (l : List Shortcut)
      (ids : List Nat) (f' : FileState),
      ReadShortcuts file = .ok l → ValidCollection l →
      (l.map (fun s => s.AppID)).Nodup → (∀ s ∈ l, s.AppID ≠ 0) →
      (∀ st ∈ steps, stepOK st) → (namesOf steps).Nodup →
      runAdds steps file = some (ids, f') →
      ids.Nodup ∧ ∃ l', ReadShortcuts f' = .ok l' ∧ ValidCollection l' ∧
        (l'.map (fun s => s.AppID)).Nodup ∧ (∀ s ∈ l', s.AppID ≠ 0) ∧
        (∀ s ∈ l, s ∈ l') ∧
        (∀ id ∈ ids, ∃ e, e ∈ l' ∧ e.AppID = id ∧ e.AppName ∈ namesOf steps) := by
  intro steps
  induction steps with
  | nil =>
    intro file l ids f' hread hvl hnd hnz _ _ hrun
    obtain ⟨rfl, rfl⟩ : ids = [] ∧ f' = file := by
      have : some (([] : List Nat), file) = some (ids, f') := by
        simpa [runAdds] using hrun
      simp only [Option.some.injEq, Prod.mk.injEq] at this
      exact ⟨this.1.symm, this.2.symm⟩
    exact ⟨List.nodup_nil, l, hread, hvl, hnd, hnz, fun s hs => hs, by simp⟩
  | cons step rest ih =>
    intro file l ids f' hread hvl hnd hnz hsteps hnames hrun
    have hnames2 : step.sc.AppName ∉ namesOf rest ∧ (namesOf rest).Nodup := by
      have : (step.sc.AppName :: namesOf rest).Nodup := hnames
      exact List.nodup_cons.1 this
    cases hadd : addShortcutFuel step.fuel step.draws file step.sc with
    | none =>
      simp only [runAdds, hadd] at hrun
      exact Option.noConfusion hrun
    | some res =>
      obtain ⟨r1, sc1, file1⟩ := res
      cases r1 with
      | error e =>
        simp only [runAdds, hadd] at hrun
        exact Option.noConfusion hrun
      | ok p =>
        obtain ⟨id0, b⟩ := p
        cases hrest : runAdds rest file1 with
        | none =>
          simp only [runAdds, hadd, hrest] at hrun
          exact Option.noConfusion hrun
        | some q =>
          obtain ⟨ids1, f1⟩ := q
          simp only [runAdds, hadd, hrest, Option.some.injEq,
            Prod.mk.injEq] at hrun
          obtain ⟨rfl, rfl⟩ := hrun
          have hstepsrest : ∀ st ∈ rest, stepOK st :=
            fun st hst => hsteps st (List.mem_cons_of_mem _ hst)
          rcases addShortcut_ok hread hadd with
            ⟨e, hfind, hr, hsc1, hfile1⟩ | ⟨hfind, hb, hsc1eq, hfile1, -, -⟩
          · -- the incoming AppName was already present: no write
            obtain ⟨hid0, -⟩ : id0 = e.AppID ∧ b = false := by
              simpa [Prod.mk.injEq] using hr
            have hename := find?_name_eq hfind
            have hread1 : ReadShortcuts file1 = .ok l := by
              rw [hfile1]; exact hread
            obtain ⟨hnd1, l'', hread'', hvl'', hnd'', hnz'', hsub'', hwit''⟩ :=
              ih file1 l ids1 _ hread1 hvl hnd hnz hstepsrest hnames2.2 hrest
            refine ⟨?_, l'', hread'', hvl'', hnd'', hnz'', hsub'', ?_⟩
            · rw [List.nodup_cons]
              refine ⟨?_, hnd1⟩
              intro hmem
              obtain ⟨e1, he1m, he1id, he1n⟩ := hwit'' id0 hmem
              have heq : e = e1 :=
                List.inj_on_of_nodup_map hnd'' (hsub'' e hename.1) he1m
                  (by rw [he1id, ← hid0])
              rw [← heq, hename.2] at he1n
              exact hnames2.1 he1n
            · intro id hid
              rcases List.mem_cons.1 hid with hid | hid
              · refine ⟨e, hsub'' e hename.1, by rw [hid, hid0], ?_⟩
                rw [hename.2]
                unfold namesOf
                simp
              · obtain ⟨e1, he1m, he1id, he1n⟩ := hwit'' id hid
                refine ⟨e1, he1m, he1id, ?_⟩
                unfold namesOf at he1n ⊢
                simp only [List.map_cons]
                exact List.mem_cons_of_mem _ he1n
          · -- a new entry was appended
            have hb' : b = true := hb
            subst hb'
            have h0 := (hsteps step (by simp)).1
            have hvstep := (hsteps step (by simp)).2
            obtain ⟨hread1, hsc1id, hsc1name, hsc1valid, hidnz, hfresh, -⟩ :=
              addShortcut_new_read hread hvl hvstep hadd
            have hnd1 : ((l ++ [sc1]).map (fun s => s.AppID)).Nodup := by
              rw [List.map_append, List.nodup_append]
              refine ⟨hnd, by simp, ?_⟩
              intro a ha ha2
              have ha3 : a = sc1.AppID := by simpa using ha2
              rw [ha3, hsc1id] at ha
              exact hfresh h0 ha
            have hnz1 : ∀ s ∈ l ++ [sc1], s.AppID ≠ 0 := by
              intro x hx
              rcases List.mem_append.1 hx with hx | hx
              · exact hnz x hx
              · have : x = sc1 := by simpa using hx
                rw [this, hsc1id]
                exact hidnz
            obtain ⟨hndids1, l'', hread'', hvl'', hnd'', hnz'', hsub'', hwit''⟩ :=
              ih file1 (l ++ [sc1]) ids1 _ hread1
                (valid_append_one hvl hsc1valid) hnd1 hnz1 hstepsrest
                hnames2.2 hrest
            have hsc1mem : sc1 ∈ l'' := hsub'' sc1 (by simp)
            refine ⟨?_, l'', hread'', hvl'', hnd'', hnz'',
              fun s hs => hsub'' s (List.mem_append_left _ hs), ?_⟩
            · rw [List.nodup_cons]
              refine ⟨?_, hndids1⟩
              intro hmem
              obtain ⟨e1, he1m, he1id, he1n⟩ := hwit'' id0 hmem
              have heq : sc1 = e1 :=
                List.inj_on_of_nodup_map hnd'' hsc1mem he1m
                  (by rw [he1id, hsc1id])
              rw [← heq, hsc1name] at he1n
              exact hnames2.1 he1n
            · intro id hid
              rcases List.mem_cons.1 hid with hid | hid
              · refine ⟨sc1, hsc1mem, by rw [hid, ← hsc1id], ?_⟩
                rw [hsc1name]
                unfold namesOf
                simp
              · obtain ⟨e1, he1m, he1id, he1n⟩ := hwit'' id hid
                refine ⟨e1, he1m, he1id, ?_⟩
                unfold namesOf at he1n ⊢
                simp only [List.map_cons]
                exact List.mem_cons_of_mem _ he1n

theorem getU32_wrong {m : VdfObj} {key : GoStr} {v : VdfValue}
    (h : m.lookup key = some v) (hv : ∀ n, v ≠ .vu32 n) : getU32 m key = 0 := by
  unfold getU32
  rw [h]
  cases v with
  | vu32 n => exact absurd rfl (hv n)
  | vstr sv => rfl
  | vobj o => rfl

theorem getStr_wrong {m : VdfObj} {key : GoStr} {v : VdfValue}
    (h : m.lookup key = some v) (hv : ∀ sv, v ≠ .vstr sv) : getStr m key = [] := by
  unfold getStr
  rw [h]
  cases v with
  | vstr sv => exact absurd rfl (hv sv)
  | vu32 n => rfl
  | vobj o => rfl

theorem addShortcut_alloc_none {fuel : Nat} {draws : Nat → Nat} {file : FileState}
    {sc : Shortcut} {l : List Shortcut}
    (hread : ReadShortcuts file = .ok l)
    (hfind : l.find? (fun s => s.AppName == sc.AppName) = none)
    (h0 : sc.AppID = 0)
    (halloc : allocFuel fuel draws (l.map (fun s => s.AppID)) = none) :
    addShortcutFuel fuel draws file sc = none := by
  unfold addShortcutFuel
  rw [hread]
  simp only
  rw [hfind, if_pos h0, halloc]

/-- Default-shaped shortcut used for the concrete scenarios below (the zero
value of every field, with the `AllowDesktopConfig` and `AllowOverlay`
defaults of the shortcut factory). -/
def baseSc : Shortcut :=
  { AppID := 0, AppName := [], Exe := [], StartDir := [], Icon := [],
    ShortcutPath := [], LaunchOptions := [], IsHidden := 0,
    AllowDesktopConfig := 1, AllowOverlay := 1, OpenVR := 0, Devkit := 0,
    DevkitGameID := [], DevkitOverrideAppID := 0, LastPlayTime := 0,
    FlatpakAppID := [], Tags := [] }

/-- A valid shortcut with a tag, AppID not yet assigned. -/
def scGameA : Shortcut :=
  { baseSc with
    AppName := gs "Game A"
    Exe := gs "exeA"
    StartDir := gs "dirA"
    Tags := [(gs "0", gs "favorite")] }

/-- A second shortcut with the same AppName as `scGameA` but another
executable. -/
def scGameA2 : Shortcut := { baseSc with AppName := gs "Game A", Exe := gs "exeB" }

/-- A valid shortcut with a distinct AppName, AppID not yet assigned. -/
def scGameB : Shortcut := { baseSc with AppName := gs "Game B" }

/-- An on-disk entry with an assigned AppID. -/
def entryA : Shortcut :=
  { baseSc with
    AppName := gs "Game A"
    AppID := 4278190081 }

/-- A shortcuts file holding exactly `entryA`. -/
def fileEntryA : FileState := some (WriteShortcuts [entryA])

/-- An on-disk entry holding the lowest AppID of the reserved range. -/
def entryLow : Shortcut :=
  { baseSc with
    AppName := gs "Game A"
    AppID := 4278190080 }

/-- A shortcuts file holding exactly `entryLow`. -/
def fileEntryLow : FileState := some (WriteShortcuts [entryLow])

/-- An incoming shortcut carrying an explicit AppID that collides with
`entryA`. -/
def scCollide : Shortcut :=
  { baseSc with
    AppName := gs "Game B"
    AppID := 4278190081 }

/-- C1.  For every valid ShortcutCollection S, reading back a written
collection restores it exactly: ReadShortcuts after WriteShortcuts on the
same path returns a sequence equal to S field-for-field (same length, same
order, every Shortcut field including the Tags mapping equal). -/
theorem C1_write_read_roundtrip (l : List Shortcut) (h : ValidCollection l) :
    ReadShortcuts (some (WriteShortcuts l)) = .ok l :=
  read_write l h

/-- Witness for C1 at a concrete two-element collection with tags. -/
theorem C1_write_read_roundtrip_witness :
    ValidCollection [scGameA, scGameB] ∧
    ReadShortcuts (some (WriteShortcuts [scGameA, scGameB])) =
      .ok [scGameA, scGameB] :=
  ⟨by decide, C1_write_read_roundtrip [scGameA, scGameB] (by decide)⟩

/-- C2.  The claim says AddShortcut retries GenerateAppID at most a fixed
finite number of times (such as 1000) and fails with AllocationExhausted
when the cap is exceeded.  The code has no cap: against a collection
holding AppID 0xFF000000 and a random source that always draws that same
value, the retry loop is still running after any number of attempts and no
error of any kind is returned. -/
theorem C2_retry_loop_unbounded :
    ∀ fuel : Nat,
      addShortcutFuel fuel (fun _ => 0) fileEntryLow scGameB = none := by
  intro fuel
  refine addShortcut_alloc_none rfl rfl rfl ?_
  refine allocFuel_conflict (fun i => ?_) fuel
  show genAppID 0 ∈ [entryLow].map (fun s => s.AppID)
  decide

/-- C7.  ReadShortcuts on a non-existent file and ReadShortcuts on a
zero-length file both return an empty shortcut sequence with no error. -/
theorem C7_missing_and_empty_file :
    ReadShortcuts none = .ok [] ∧ ReadShortcuts (some []) = .ok [] :=
  ⟨rfl, rfl⟩

/-- C8.  The claim says GenerateAppID draws uniformly from the range
0xFF000000 to 0xFFFFFFFF.  The code computes rangeSize as max minus min
(0xFFFFFF instead of 0x1000000) and rand.Int samples below that exclusive
bound, so every result lies in the range 0xFF000000 to 0xFFFFFFFE and the
documented upper endpoint 0xFFFFFFFF is produced for no draw at all. -/
theorem C8_appid_range_gap :
    (∀ r : Nat, 4278190080 ≤ genAppID r ∧ genAppID r ≤ 4294967294) ∧
    (¬ ∃ r : Nat, genAppID r = 4294967295) := by
  constructor
  · exact genAppID_bounds
  · rintro ⟨r, hr⟩
    have := genAppID_bounds r
    omega

/-- C9.  When mapping a decoded node tree into a Shortcut, every known key
whose value has the wrong dynamic type is silently skipped, leaving that
field at its zero value; no error is raised (parseShortcutEntry is total). -/
theorem C9_wrong_type_skipped (m : VdfObj) :
    (∀ v, m.lookup (gs "appid") = some v → (∀ n, v ≠ .vu32 n) →
      (parseShortcutEntry m).AppID = 0) ∧
    (∀ v, m.lookup (gs "AppName") = some v → (∀ sv, v ≠ .vstr sv) →
      (parseShortcutEntry m).AppName = []) ∧
    (∀ v, m.lookup (gs "Exe") = some v → (∀ sv, v ≠ .vstr sv) →
      (parseShortcutEntry m).Exe = []) ∧
    (∀ v, m.lookup (gs "StartDir") = some v → (∀ sv, v ≠ .vstr sv) →
      (parseShortcutEntry m).StartDir = []) ∧
    (∀ v, m.lookup (gs "icon") = some v → (∀ sv, v ≠ .vstr sv) →
      (parseShortcutEntry m).Icon = []) ∧
    (∀ v, m.lookup (gs "ShortcutPath") = some v → (∀ sv, v ≠ .vstr sv) →
      (parseShortcutEntry m).ShortcutPath = []) ∧
    (∀ v, m.lookup (gs "LaunchOptions") = some v → (∀ sv, v ≠ .vstr sv) →
      (parseShortcutEntry m).LaunchOptions = []) ∧
    (∀ v, m.lookup (gs "IsHidden") = some v → (∀ n, v ≠ .vu32 n) →
      (parseShortcutEntry m).IsHidden = 0) ∧
    (∀ v, m.lookup (gs "AllowDesktopConfig") = some v → (∀ n, v ≠ .vu32 n) →
      (parseShortcutEntry m).AllowDesktopConfig = 0) ∧
    (∀ v, m.lookup (gs "AllowOverlay") = some v → (∀ n, v ≠ .vu32 n) →
      (parseShortcutEntry m).AllowOverlay = 0) ∧
    (∀ v, m.lookup (gs "OpenVR") = some v → (∀ n, v ≠ .vu32 n) →
      (parseShortcutEntry m).OpenVR = 0) ∧
    (∀ v, m.lookup (gs "Devkit") = some v → (∀ n, v ≠ .vu32 n) →
      (parseShortcutEntry m).Devkit = 0) ∧
    (∀ v, m.lookup (gs "DevkitGameID") = some v → (∀ sv, v ≠ .vstr sv) →
      (parseShortcutEntry m).DevkitGameID = []) ∧
    (∀ v, m.lookup (gs "DevkitOverrideAppID") = some v → (∀ n, v ≠ .vu32 n) →
      (parseShortcutEntry m).DevkitOverrideAppID = 0) ∧
    (∀ v, m.lookup (gs "LastPlayTime") = some v → (∀ n, v ≠ .vu32 n) →
      (parseShortcutEntry m).LastPlayTime = 0) ∧
    (∀ v, m.lookup (gs "FlatpakAppID") = some v → (∀ sv, v ≠ .vstr sv) →
      (parseShortcutEntry m).FlatpakAppID = []) ∧
    (∀ v, m.lookup (gs "tags") = some v → (∀ o, v ≠ .vobj o) →
      (parseShortcutEntry m).Tags = []) := by
  refine ⟨fun v h hv => getU32_wrong h hv, fun v h hv => getStr_wrong h hv,
    fun v h hv => getStr_wrong h hv, fun v h hv => getStr_wrong h hv,
    fun v h hv => getStr_wrong h hv, fun v h hv => getStr_wrong h hv,
    fun v h hv => getStr_wrong h hv, fun v h hv => getU32_wrong h hv,
    fun v h hv => getU32_wrong h hv, fun v h hv => getU32_wrong h hv,
    fun v h hv => getU32_wrong h hv, fun v h hv => getU32_wrong h hv,
    fun v h hv => getStr_wrong h hv, fun v h hv => getU32_wrong h hv,
    fun v h hv => getU32_wrong h hv, fun v h hv => getStr_wrong h hv,
    fun v h hv => ?_⟩
  have hbase : (parseShortcutEntry m).Tags =
      (match m.lookup (gs "tags") with
       | some (.vobj t) => collectTags t []
       | _ => []) := rfl
  rw [hbase, h]
  cases v with
  | vobj o => exact absurd rfl (hv o)
  | vstr sv => rfl
  | vu32 n => rfl

/-- Witness for C9: a concrete entry object where a string stands where a
uint32 is expected, a uint32 where a string is expected, and a string under
the tags key; the three fields keep their zero values. -/
theorem C9_wrong_type_skipped_witness :
    (parseShortcutEntry (.cons (gs "appid") (.vstr (gs "oops"))
        (.cons (gs "AppName") (.vu32 7)
          (.cons (gs "tags") (.vstr (gs "x")) .nil)))).AppID = 0 ∧
    (parseShortcutEntry (.cons (gs "appid") (.vstr (gs "oops"))
        (.cons (gs "AppName") (.vu32 7)
          (.cons (gs "tags") (.vstr (gs "x")) .nil)))).AppName = [] ∧
    (parseShortcutEntry (.cons (gs "appid") (.vstr (gs "oops"))
        (.cons (gs "AppName") (.vu32 7)
          (.cons (gs "tags") (.vstr (gs "x")) .nil)))).Tags = [] := by
  refine ⟨(C9_wrong_type_skipped _).1 _ rfl ?_,
    (C9_wrong_type_skipped _).2.1 _ rfl ?_,
    (C9_wrong_type_skipped _).2.2.2.2.2.2.2.2.2.2.2.2.2.2.2.2 _ rfl ?_⟩
  · intro n h
    exact VdfValue.noConfusion h
  · intro sv h
    exact VdfValue.noConfusion h
  · intro o h
    exact VdfValue.noConfusion h

theorem updateShortcut_eq {file : FileState} {sc : Shortcut} {l : List Shortcut}
    (hread : ReadShortcuts file = .ok l) :
    updateShortcut file sc =
      (match replaceFirst l sc with
       | none => (.error (.notFound sc.AppID), file)
       | some l2 => (.ok (), some (WriteShortcuts l2))) := by
  unfold updateShortcut
  rw [hread]

theorem removeShortcut_eq {file : FileState} {a : Nat} {l : List Shortcut}
    (hread : ReadShortcuts file = .ok l) :
    removeShortcut file a =
      (.ok (), some (WriteShortcuts (l.filter (fun s => s.AppID != a)))) := by
  unfold removeShortcut
  rw [hread]

/-- C3 counterexample.  AddShortcut appends an incoming shortcut that
carries an explicit non-zero AppID without any conflict check: adding
`scCollide` (AppID 0xFF000001, name Game B) to a collection already holding
`entryA` (same AppID, name Game A) succeeds and persists a collection whose
non-zero AppIDs are no longer pairwise distinct. -/
theorem C3_explicit_appid_breaks_uniqueness :
    addShortcutFuel 1 (fun _ => 0) fileEntryA scCollide =
      some (.ok (4278190081, true), scCollide,
        some (WriteShortcuts [entryA, scCollide])) ∧
    ReadShortcuts (some (WriteShortcuts [entryA, scCollide])) =
      .ok [entryA, scCollide] ∧
    ¬ ((([entryA, scCollide].map (fun s => s.AppID)).filter
        (fun n => n != 0)).Nodup) :=
  ⟨rfl, rfl, by decide⟩

/-- C3 (amended).  UpdateShortcut and RemoveShortcut preserve
pairwise-distinctness of the non-zero AppIDs of the on-disk collection,
and after N sequential AddShortcut calls with pairwise-distinct AppNames
and input AppID 0 against a collection of distinct non-zero AppIDs, the N
returned AppIDs are pairwise distinct; AddShortcut with an explicit
non-zero AppID, however, is appended without any conflict check and can
break the invariant (see the counterexample). -/
theorem C3_appid_uniqueness :
    (∀ (file : FileState) (l : List Shortcut) (a : Nat),
      ReadShortcuts file = .ok l → ValidCollection l →
      ((l.map (fun s => s.AppID)).filter (fun n => n != 0)).Nodup →
      ∃ l', ReadShortcuts (removeShortcut file a).2 = .ok l' ∧
        ((l'.map (fun s => s.AppID)).filter (fun n => n != 0)).Nodup) ∧
    (∀ (file : FileState) (l : List Shortcut) (sc : Shortcut),
      ReadShortcuts file = .ok l → ValidCollection l → sc.Valid →
      ((l.map (fun s => s.AppID)).filter (fun n => n != 0)).Nodup →
      ∃ l', ReadShortcuts (updateShortcut file sc).2 = .ok l' ∧
        ((l'.map (fun s => s.AppID)).filter (fun n => n != 0)).Nodup) ∧
    (∀ (steps : List AddStep) (file : FileState) (l : List Shortcut)
      (ids : List Nat) (f' : FileState),
      ReadShortcuts file = .ok l → ValidCollection l →
      (l.map (fun s => s.AppID)).Nodup → (∀ s ∈ l, s.AppID ≠ 0) →
      (∀ st ∈ steps, stepOK st) → (namesOf steps).Nodup →
      runAdds steps file = some (ids, f') → ids.Nodup) := by
  refine ⟨?_, ?_, ?_⟩
  · intro file l a hread hvl hnd
    refine ⟨l.filter (fun s => s.AppID != a), ?_, ?_⟩
    · rw [removeShortcut_eq hread]
      exact read_write _ (fun x hx => hvl x (List.mem_of_mem_filter hx))
    · have h1 : List.Sublist
          ((l.filter (fun s => s.AppID != a)).map (fun s => s.AppID))
          (l.map (fun s => s.AppID)) :=
        (List.filter_sublist l).map (fun s => s.AppID)
      exact hnd.sublist (h1.filter (fun n => n != 0))
  · intro file l sc hread hvl hvsc hnd
    cases hrf : replaceFirst l sc with
    | none =>
      refine ⟨l, ?_, hnd⟩
      rw [updateShortcut_eq hread, hrf]
      exact hread
    | some l2 =>
      refine ⟨l2, ?_, ?_⟩
      · rw [updateShortcut_eq hread, hrf]
        exact read_write _ (replaceFirst_valid hvl hvsc hrf)
      · rw [replaceFirst_map hrf]
        exact hnd
  · intro steps file l ids f' h1 h2 h3 h4 h5 h6 h7
    exact (runAdds_spec steps file l ids f' h1 h2 h3 h4 h5 h6 h7).1

/-- Two sequential add steps with distinct names, fresh AppIDs asked for,
and draws that produce distinct candidates. -/
def stepsC3 : List AddStep :=
  [⟨1, fun _ => 0, scGameA⟩, ⟨1, fun _ => 1, scGameB⟩]

/-- The file produced by running `stepsC3` against a missing file. -/
def fileC3End : FileState :=
  some (WriteShortcuts [{ scGameA with AppID := 4278190080 },
    { scGameB with AppID := 4278190081 }])

/-- Witness for the amended C3: a concrete two-step run from a missing file
returns two distinct AppIDs. -/
theorem C3_appid_uniqueness_witness :
    runAdds stepsC3 none = some ([4278190080, 4278190081], fileC3End) ∧
    ([4278190080, 4278190081] : List Nat).Nodup := by
  refine ⟨rfl, C3_appid_uniqueness.2.2 stepsC3 none [] [4278190080, 4278190081]
    fileC3End rfl (by decide) (by decide) (by decide) ?_ (by decide) rfl⟩
  intro st hst
  cases hst with
  | head => exact ⟨rfl, by decide⟩
  | tail _ h2 =>
    cases h2 with
    | head => exact ⟨rfl, by decide⟩
    | tail _ h3 => cases h3

/-- C4.  AddShortcut is idempotent by AppName: when the collection already
holds an entry with the incoming AppName, the first matching entry's AppID
is returned with isNew false, the caller's shortcut is not touched and
nothing is written; hence a second add with the same AppName right after a
fresh add returns the same AppID, isNew false, and leaves the file (and so
the collection length) unchanged. -/
theorem C4_idempotent_add (fuel fuel2 : Nat) (draws draws2 : Nat → Nat)
    (file : FileState) (l : List Shortcut) (sc sc2 : Shortcut)
    (hread : ReadShortcuts file = .ok l) :
    (∀ e, l.find? (fun s => s.AppName == sc.AppName) = some e →
      addShortcutFuel fuel draws file sc = some (.ok (e.AppID, false), sc, file)) ∧
    (∀ id sc' file', ValidCollection l → sc.Valid → sc2.AppName = sc.AppName →
      addShortcutFuel fuel draws file sc = some (.ok (id, true), sc', file') →
      ReadShortcuts file' = .ok (l ++ [sc']) ∧
      addShortcutFuel fuel2 draws2 file' sc2 =
        some (.ok (id, false), sc2, file')) := by
  constructor
  · intro e hfind
    unfold addShortcutFuel
    rw [hread]
    simp only
    rw [hfind]
  · intro id sc' file' hvl hvsc hname hadd
    obtain ⟨hread', hscid, hscname, hscvalid, -, -, hfind⟩ :=
      addShortcut_new_read hread hvl hvsc hadd
    refine ⟨hread', ?_⟩
    unfold addShortcutFuel
    rw [hread']
    simp only
    rw [hname, find?_append_none hfind]
    have hone : List.find? (fun s => s.AppName == sc.AppName) [sc'] = some sc' := by
      rw [List.find?_cons_of_pos]
      simp [hscname]
    rw [hone]
    simp only [hscid]

/-- The entry persisted by the first add of the C4 scenario. -/
def scGameA' : Shortcut := { scGameA with AppID := 4278190080 }

/-- The file state after the first add of the C4 scenario. -/
def fileAfterA : FileState := some (WriteShortcuts [scGameA'])

/-- Witness for C4: a fresh add of Game A from a missing file followed by a
second add with the same name returns the same AppID with isNew false and
leaves the file unchanged. -/
theorem C4_idempotent_add_witness :
    ReadShortcuts fileAfterA = .ok [scGameA'] ∧
    addShortcutFuel 1 (fun _ => 1) fileAfterA scGameA2 =
      some (.ok (4278190080, false), scGameA2, fileAfterA) :=
  (C4_idempotent_add 1 1 (fun _ => 0) (fun _ => 1) none [] scGameA scGameA2
    rfl).2 4278190080 scGameA' fileAfterA (by decide) (by decide) rfl rfl

/-- C5.  UpdateShortcut with an absent AppID fails with NotFound and the
file is unchanged (the error is returned before any write); with a present
AppID the first matching entry is replaced in place at its position and
the collection is written back. -/
theorem C5_update_semantics (file : FileState) (l : List Shortcut)
    (sc : Shortcut) (hread : ReadShortcuts file = .ok l) :
    ((∀ s ∈ l, s.AppID ≠ sc.AppID) →
      updateShortcut file sc = (.error (.notFound sc.AppID), file)) ∧
    (∀ i e, ValidCollection l → sc.Valid → l[i]? = some e →
      e.AppID = sc.AppID →
      (∀ j, j < i → ∀ e', l[j]? = some e' → e'.AppID ≠ sc.AppID) →
      updateShortcut file sc = (.ok (), some (WriteShortcuts (l.set i sc))) ∧
      ReadShortcuts (some (WriteShortcuts (l.set i sc))) = .ok (l.set i sc)) := by
  constructor
  · intro h
    rw [updateShortcut_eq hread, replaceFirst_none.2 h]
  · intro i e hvl hvsc hi he hj
    have hrf := replaceFirst_set hi he hj
    have hvset : ValidCollection (l.set i sc) := by
      intro x hx
      rcases List.mem_or_eq_of_mem_set hx with hx2 | hx2
      · exact hvl x hx2
      · rw [hx2]; exact hvsc
    constructor
    · rw [updateShortcut_eq hread, hrf]
    · exact read_write _ hvset

/-- An update target whose AppID is absent from `fileEntryA`. -/
def scUpdMiss : Shortcut :=
  { baseSc with
    AppName := gs "New Game"
    AppID := 4278190082 }

/-- An update target whose AppID matches `entryA`. -/
def scUpdHit : Shortcut :=
  { baseSc with
    AppName := gs "Game A Redux"
    Exe := gs "exeNew"
    AppID := 4278190081 }

/-- Witness for C5: against a file holding exactly `entryA`, an update with
an absent AppID returns NotFound leaving the file untouched, and an update
with the matching AppID replaces the entry in place. -/
theorem C5_update_semantics_witness :
    updateShortcut fileEntryA scUpdMiss =
      (.error (.notFound 4278190082), fileEntryA) ∧
    updateShortcut fileEntryA scUpdHit =
      (.ok (), some (WriteShortcuts ([entryA].set 0 scUpdHit))) ∧
    ReadShortcuts (some (WriteShortcuts ([entryA].set 0 scUpdHit))) =
      .ok ([entryA].set 0 scUpdHit) :=
  ⟨(C5_update_semantics fileEntryA [entryA] scUpdMiss rfl).1 (by decide),
   (C5_update_semantics fileEntryA [entryA] scUpdHit rfl).2 0 entryA
     (by decide) (by decide) rfl rfl
     (fun j hj e' he' => absurd hj (Nat.not_lt_zero j))⟩

/-- C6 counterexample.  The claim says removing an absent AppID leaves the
shortcuts file unchanged.  RemoveShortcut writes unconditionally: against a
missing file it succeeds and creates the file (the empty collection is
serialized and written), so the file state changes. -/
theorem C6_remove_missing_creates_file :
    (removeShortcut none 4278190085).1 = .ok () ∧
    (removeShortcut none 4278190085).2 ≠ none :=
  ⟨rfl, by decide⟩

/-- C6 (amended).  RemoveShortcut with an absent AppID returns success and
leaves the decoded collection unchanged, but the file is unconditionally
re-serialized and rewritten (in particular a missing file is created);
with a present AppID every entry carrying it is removed and the remainder,
possibly empty, is persisted. -/
theorem C6_remove_rewrites (file : FileState) (l : List Shortcut) (a : Nat)
    (hread : ReadShortcuts file = .ok l) (hvl : ValidCollection l) :
    (removeShortcut file a).1 = .ok () ∧
    (removeShortcut file a).2 =
      some (WriteShortcuts (l.filter (fun s => s.AppID != a))) ∧
    ReadShortcuts (removeShortcut file a).2 =
      .ok (l.filter (fun s => s.AppID != a)) ∧
    ((∀ s ∈ l, s.AppID ≠ a) →
      ReadShortcuts (removeShortcut file a).2 = .ok l) := by
  have hres := removeShortcut_eq (a := a) hread
  have hfl : ValidCollection (l.filter (fun s => s.AppID != a)) :=
    fun x hx => hvl x (List.mem_of_mem_filter hx)
  refine ⟨by rw [hres], by rw [hres], by rw [hres]; exact read_write _ hfl, ?_⟩
  intro h
  have hfeq : l.filter (fun s => s.AppID != a) = l :=
    List.filter_eq_self.mpr (fun s hs => by simpa using h s hs)
  rw [hres]
  simp only [hfeq]
  exact read_write _ hvl

/-- Witness for the amended C6: removing an AppID absent from a file holding
exactly `entryA` succeeds and the collection read back is unchanged. -/
theorem C6_remove_rewrites_witness :
    (removeShortcut fileEntryA 4278190085).1 = .ok () ∧
    ReadShortcuts (removeShortcut fileEntryA 4278190085).2 = .ok [entryA] :=
  ⟨(C6_remove_rewrites fileEntryA [entryA] 4278190085 rfl (by decide)).1,
   (C6_remove_rewrites fileEntryA [entryA] 4278190085 rfl
     (by decide)).2.2.2 (by decide)⟩

/-- C10.  AddShortcut writes the allocated AppID through the caller's
shortcut pointer: whenever a call appends a new entry, the final value of
the caller's shortcut equals the argument with its AppID field set to the
returned AppID, that AppID is non-zero, and exactly this shortcut value is
what was appended and written. -/
theorem C10_add_mutates_argument (fuel : Nat) (draws : Nat → Nat)
    (file : FileState) (l : List Shortcut) (sc : Shortcut) (id : Nat)
    (sc' : Shortcut) (file' : FileState)
    (hread : ReadShortcuts file = .ok l)
    (hadd : addShortcutFuel fuel draws file sc = some (.ok (id, true), sc', file')) :
    sc' = { sc with AppID := id } ∧ id ≠ 0 ∧
    file' = some (WriteShortcuts (l ++ [sc'])) := by
  rcases addShortcut_ok hread hadd with
    ⟨e, _, hr, _, _⟩ | ⟨-, -, hsc, hfile, halloc0, hallocn⟩
  · simp at hr
  · refine ⟨hsc, ?_, hfile⟩
    by_cases h0 : sc.AppID = 0
    · have hb := allocFuel_some (halloc0 h0)
      omega
    · have := hallocn h0
      simp only at this
      omega

/-- Witness for C10: the concrete fresh add of the C4 scenario mutates the
argument to carry the returned non-zero AppID. -/
theorem C10_add_mutates_argument_witness :
    scGameA' = { scGameA with AppID := 4278190080 } ∧ (4278190080 : Nat) ≠ 0 ∧
    fileAfterA = some (WriteShortcuts ([] ++ [scGameA'])) :=
  C10_add_mutates_argument 1 (fun _ => 0) none [] scGameA 4278190080 scGameA'
    fileAfterA rfl rfl

end Zladxhd
